import Mathlib

/-!
Shallow embedding of the numeric core of the financial-calculator
repository: the TVM formula library (`financial.ts`), the bisection
root-finder (`solver.ts`) and the amortization schedule engine
(`amortization.ts`).  Machine floating-point numbers are modelled by `ℚ`
(exact arithmetic); loops become fuel-indexed structural recursion, and
fallible functions return `Option ℚ`.
-/

/-- Payment timing: `'begin' | 'end'` in the source. -/
inductive Timing
  | begin
  | end'
deriving DecidableEq, Repr

/-- Schedule type: `'shpitzer' | 'regular' | 'balloon' | 'grace'`. -/
inductive ScheduleType
  | shpitzer
  | regular
  | balloon
  | grace
deriving DecidableEq, Repr

/-- One amortization schedule entry (`AMRTRow` in the source). -/
structure AMRTRow where
  period : ℕ
  principalPayment : ℚ
  interestPayment : ℚ
  totalPayment : ℚ
  remainingBalance : ℚ
deriving DecidableEq, Repr

instance : Inhabited AMRTRow := ⟨⟨0, 0, 0, 0, 0⟩⟩

/-! ## TVM engine (`financial.ts`) -/

/-- Source `calculateFV(pv, rate, periods, pmt, paymentTiming)`: closed-form future
value with a fixed percentage rate.  `periods` is taken as a natural number
(the claims only concern integer period counts). -/
def calculateFV (pv rate : ℚ) (periods : ℕ) (pmt : ℚ) (paymentTiming : Timing) : ℚ :=
  let r := rate / 100
  let n := periods
  if r = 0 then
    pv + pmt * n
  else
    let pvFactor := (1 + r) ^ n
    let pmtFactor := ((1 + r) ^ n - 1) / r * (if paymentTiming = .begin then 1 + r else 1)
    pv * pvFactor + pmt * pmtFactor

/-- Source `calculateFVVariable(pv, variableRates, pmt, paymentTiming)`: sequential
compounding, one rate per period, in array order. -/
def calculateFVVariable (pv : ℚ) (variableRates : List ℚ) (pmt : ℚ)
    (paymentTiming : Timing) : ℚ :=
  variableRates.foldl
    (fun fv vr =>
      let r := vr / 100
      if paymentTiming = .begin then (fv + pmt) * (1 + r) else fv * (1 + r) + pmt)
    pv

/-- Source `calculatePV(fv, rate, periods, pmt, paymentTiming)`: closed-form present
value; `Math.pow(1+r, -n)` becomes an integer power with negative exponent. -/
def calculatePV (fv rate : ℚ) (periods : ℕ) (pmt : ℚ) (paymentTiming : Timing) : ℚ :=
  let r := rate / 100
  let n := periods
  if r = 0 then
    fv - pmt * n
  else
    let fvFactor := (1 + r) ^ (-(n : ℤ))
    let pmtFactor := (1 - (1 + r) ^ (-(n : ℤ))) / r * (if paymentTiming = .begin then 1 + r else 1)
    fv * fvFactor - pmt * pmtFactor

/-- The sum `Σ_{t≥i} cf_t / (1+r)^t` over the tail of a cash-flow list whose
first element carries index `i`; `r` is the per-period fractional rate. -/
def npvFrom (r : ℚ) : List ℚ → ℕ → ℚ
  | [], _ => 0
  | c :: cs, i => c / (1 + r) ^ i + npvFrom r cs (i + 1)

/-- Source `calculateNPV(cashFlows, discountRate)`: `Σ cf_i / (1+r)^i`, index 0
undiscounted. -/
def calculateNPV (cashFlows : List ℚ) (discountRate : ℚ) : ℚ :=
  npvFrom (discountRate / 100) cashFlows 0

/-- The derivative accumulator of the IRR Newton iteration:
`Σ_{t≥i} -(t·cf_t) / (1+rate)^(t+1)`. -/
def dnpvFrom (r : ℚ) : List ℚ → ℕ → ℚ
  | [], _ => 0
  | c :: cs, i => -(i * c / (1 + r) ^ (i + 1)) + dnpvFrom r cs (i + 1)

/-- One run of the `calculateIRR` Newton loop with the given fuel. -/
def irrLoop (cashFlows : List ℚ) : ℕ → ℚ → Option ℚ
  | 0, _ => none
  | fuel + 1, rate =>
    let npv := npvFrom rate cashFlows 0
    let dnpv := dnpvFrom rate cashFlows 0
    if |npv| < 1 / 1000000 then some (rate * 100)
    else if |dnpv| < 1 / 10000000000 then none
    else
      let rate' := rate - npv / dnpv
      if rate' < -1 then none
      else irrLoop cashFlows fuel rate'

/-- Source `calculateIRR(cashFlows, guess)`: Newton-Raphson on NPV(rate)=0,
tolerance 1e-6, at most 100 iterations; `none` models the `null` returns. -/
def calculateIRR (cashFlows : List ℚ) (guess : ℚ) : Option ℚ :=
  irrLoop cashFlows 100 guess

/-! ## Root-finder (`solver.ts`) -/

/-- The bounded bisection loop.  State: bracket `[a, b]` together with the
cached values `fa = f a`, `fb = f b`; fuel counts the remaining iterations.
When the fuel runs out the final midpoint is returned. -/
def bisectionLoop (f : ℚ → ℚ) (tolerance : ℚ) : ℕ → ℚ → ℚ → ℚ → ℚ → ℚ
  | 0, a, b, _, _ => (a + b) / 2
  | fuel + 1, a, b, fa, fb =>
    let c := (a + b) / 2
    let fc := f c
    if |fc| < tolerance ∨ |b - a| < tolerance then c
    else if fa * fc < 0 then bisectionLoop f tolerance fuel a c fa fc
    else bisectionLoop f tolerance fuel c b fc fb

/-- Source `bisectionMethod(func, a, b, tolerance, maxIterations)`: returns `none`
("no root in interval") when `f(a)·f(b) > 0`, otherwise runs the bounded
bisection loop. -/
def bisectionMethod (f : ℚ → ℚ) (a b tolerance : ℚ) (maxIterations : ℕ) : Option ℚ :=
  let fa := f a
  let fb := f b
  if fa * fb > 0 then none
  else some (bisectionLoop f tolerance maxIterations a b fa fb)

/-! ## Amortization engine (`amortization.ts`) -/

/-- The `for` loop of `generateShpitzerSchedule`: `pp` is the precomputed
equal principal slice `principal/periods`, `r` the fractional rate, `period`
the 1-based loop counter and `bal` the running `remainingBalance`.  Only the
stored row clamps the balance at 0; the carried balance is unclamped. -/
def shpitzerLoop (pp r : ℚ) (paymentTiming : Timing) : ℕ → ℕ → ℚ → List AMRTRow
  | 0, _, _ => []
  | fuel + 1, period, bal =>
    let app := min pp bal
    let ip := if paymentTiming = .begin then (bal - app) * r else bal * r
    { period := period, principalPayment := app, interestPayment := ip,
      totalPayment := app + ip, remainingBalance := max 0 (bal - app) } ::
      shpitzerLoop pp r paymentTiming fuel (period + 1) (bal - app)

/-- Source `generateShpitzerSchedule(principal, rate, periods, paymentTiming)`:
equal principal payments. -/
def generateShpitzerSchedule (principal rate : ℚ) (periods : ℕ)
    (paymentTiming : Timing) : List AMRTRow :=
  shpitzerLoop (principal / periods) (rate / 100) paymentTiming periods 1 principal

/-- The `for` loop of `generateRegularSchedule`: `pmt` is the precomputed
level payment, `r` the fractional rate. -/
def regularLoop (pmt r : ℚ) (paymentTiming : Timing) : ℕ → ℕ → ℚ → List AMRTRow
  | 0, _, _ => []
  | fuel + 1, period, bal =>
    if paymentTiming = .begin then
      let pp := min (pmt / (1 + r)) bal
      let ip := (bal - pp) * r
      { period := period, principalPayment := pp, interestPayment := ip,
        totalPayment := pp + ip, remainingBalance := max 0 (bal - pp) } ::
        regularLoop pmt r paymentTiming fuel (period + 1) (bal - pp)
    else
      let ip := bal * r
      let pp := min (pmt - ip) bal
      { period := period, principalPayment := pp, interestPayment := ip,
        totalPayment := pp + ip, remainingBalance := max 0 (bal - pp) } ::
        regularLoop pmt r paymentTiming fuel (period + 1) (bal - pp)

/-- The level payment computed at the top of `generateRegularSchedule`. -/
def regularPmt (principal rate : ℚ) (periods : ℕ) (paymentTiming : Timing) : ℚ :=
  let r := rate / 100
  if r = 0 then principal / periods
  else if paymentTiming = .begin then
    principal * r / ((1 - (1 + r) ^ (-(periods : ℤ))) * (1 + r))
  else
    principal * r / (1 - (1 + r) ^ (-(periods : ℤ)))

/-- Source `generateRegularSchedule(principal, rate, periods, paymentTiming)`:
annuity amortization with a level payment. -/
def generateRegularSchedule (principal rate : ℚ) (periods : ℕ)
    (paymentTiming : Timing) : List AMRTRow :=
  regularLoop (regularPmt principal rate periods paymentTiming) (rate / 100)
    paymentTiming periods 1 principal

/-- The body of the `generateBalloonSchedule` loop: the row for 1-based
`period` out of `periods`.  No state is carried between iterations. -/
def balloonRow (principal r : ℚ) (periods : ℕ) (paymentTiming : Timing)
    (period : ℕ) : AMRTRow :=
  if period < periods then
    { period := period, principalPayment := 0,
      interestPayment := principal * r,
      totalPayment := 0 + principal * r, remainingBalance := principal }
  else
    let ip := if paymentTiming = .begin then 0 else principal * r
    { period := period, principalPayment := principal, interestPayment := ip,
      totalPayment := principal + ip, remainingBalance := 0 }

/-- Source `generateBalloonSchedule(principal, rate, periods, paymentTiming)`:
interest-only payments plus a final balloon payment. -/
def generateBalloonSchedule (principal rate : ℚ) (periods : ℕ)
    (paymentTiming : Timing) : List AMRTRow :=
  (List.range periods).map fun i => balloonRow principal (rate / 100) periods paymentTiming (i + 1)

/-- The body of the `generateGraceSchedule` loop: the row for 1-based
`period` out of `periods`.  The `gracePeriods` argument of the generator is
never consulted here — the branch is on `period < periods` only. -/
def graceRow (principal r : ℚ) (periods : ℕ) (period : ℕ) : AMRTRow :=
  if period < periods then
    { period := period, principalPayment := 0,
      interestPayment := principal * r,
      totalPayment := 0 + principal * r, remainingBalance := principal }
  else
    { period := period, principalPayment := principal,
      interestPayment := principal * r,
      totalPayment := principal + principal * r, remainingBalance := 0 }

/-- Source `generateGraceSchedule(principal, rate, periods, gracePeriods,
paymentTiming)`: interest-only until the final period.  Both `gracePeriods`
and `paymentTiming` are parameters of the source function that its loop
never reads. -/
def generateGraceSchedule (principal rate : ℚ) (periods gracePeriods : ℕ)
    (paymentTiming : Timing) : List AMRTRow :=
  let _ := gracePeriods
  let _ := paymentTiming
  (List.range periods).map fun i => graceRow principal (rate / 100) periods (i + 1)

/-- Source `generateSchedule(principal, rate, periods, scheduleType, paymentTiming,
gracePeriods?)`: dispatch on the schedule type; the optional `gracePeriods`
is defaulted with `gracePeriods || periods` (JS: `0` is falsy). -/
def generateSchedule (principal rate : ℚ) (periods : ℕ)
    (scheduleType : ScheduleType) (paymentTiming : Timing)
    (gracePeriods : Option ℕ) : List AMRTRow :=
  match scheduleType with
  | .shpitzer => generateShpitzerSchedule principal rate periods paymentTiming
  | .regular => generateRegularSchedule principal rate periods paymentTiming
  | .balloon => generateBalloonSchedule principal rate periods paymentTiming
  | .grace =>
    let g := match gracePeriods with
      | some v => if v = 0 then periods else v
      | none => periods
    generateGraceSchedule principal rate periods g paymentTiming

/-- Closed-form outstanding balance of a level-payment (annuity) loan after
`j` of `n` periods at fractional rate `r`: used only in proofs about
`generateRegularSchedule`. -/
def annuityBalance (principal r : ℚ) (n j : ℕ) : ℚ :=
  principal * ((1 + r) ^ n - (1 + r) ^ j) / ((1 + r) ^ n - 1)

/-- Principal paid by one `regularLoop` iteration at balance `bal` (the
branch-dependent `principalPayment` of the loop body). -/
def regularPay (pmt r : ℚ) (t : Timing) (bal : ℚ) : ℚ :=
  if t = .begin then min (pmt / (1 + r)) bal else min (pmt - bal * r) bal

/-- Interest charged by one `regularLoop` iteration at balance `bal` (the
branch-dependent `interestPayment` of the loop body). -/
def regularIP (pmt r : ℚ) (t : Timing) (bal : ℚ) : ℚ :=
  if t = .begin then (bal - min (pmt / (1 + r)) bal) * r else bal * r

/-! ## Theorems -/

/-- C9: with an empty rate series, `calculateFVVariable` is the identity on
`pv`: no compounding is applied and no payment is added. -/
theorem calculateFVVariable_nil (pv pmt : ℚ) (t : Timing) :
    calculateFVVariable pv [] pmt t = pv := rfl

/-- C4: the output of `generateGraceSchedule` is completely independent of
the `gracePeriods` argument — every period before the last is interest-only
regardless of the declared grace length. -/
theorem generateGraceSchedule_ignores_gracePeriods (principal rate : ℚ)
    (periods g1 g2 : ℕ) (t : Timing) :
    generateGraceSchedule principal rate periods g1 t
      = generateGraceSchedule principal rate periods g2 t := rfl

/-- C2 counterexample: the first row of
`generateShpitzerSchedule(1200, 12, 12, 'end')` has `interestPayment = 144`
(12% of 1200), not `12` as the claim states. -/
theorem shpitzer_1200_row1_interest_ne_12 :
    ((generateShpitzerSchedule 1200 12 12 Timing.end').getD 0 default).interestPayment = 144
    ∧ ((144 : ℚ) ≠ 12) := by
  constructor
  · norm_num [generateShpitzerSchedule, shpitzerLoop,
      (by decide : Timing.end' ≠ Timing.begin)]
  · norm_num

/-- C2 (amended): the first row of
`generateShpitzerSchedule(1200, 12, 12, 'end')` equals
`{period: 1, principalPayment: 100, interestPayment: 144, totalPayment: 244,
remainingBalance: 1100}`. -/
theorem shpitzer_1200_row1 :
    (generateShpitzerSchedule 1200 12 12 Timing.end').getD 0 default
      = { period := 1, principalPayment := 100, interestPayment := 144,
          totalPayment := 244, remainingBalance := 1100 } := by
  norm_num [generateShpitzerSchedule, shpitzerLoop,
    (by decide : Timing.end' ≠ Timing.begin)]

/-- Row `k` (0-based) of a balloon schedule of `n` rows is the `balloonRow`
for 1-based period `k+1`. -/
theorem generateBalloonSchedule_getD (principal rate : ℚ) (n : ℕ) (t : Timing)
    (k : ℕ) (hk : k < n) :
    (generateBalloonSchedule principal rate n t).getD k default
      = balloonRow principal (rate / 100) n t (k + 1) := by
  have hlen : k < ((List.range n).map
      (fun i => balloonRow principal (rate / 100) n t (i + 1))).length := by
    simpa using hk
  rw [generateBalloonSchedule, List.getD_eq_getElem?_getD, List.getElem?_eq_getElem hlen]
  simp [List.getElem_map, List.getElem_range]

/-- C1 counterexample: with `begin` timing the final balloon row charges no
interest: at `(principal, rate, periods) = (100, 10, 2)` the last row's
`interestPayment` is `0`, not `principal * (rate/100) = 10`. -/
theorem balloon_begin_final_interest_zero :
    ((generateBalloonSchedule 100 10 2 Timing.begin).getD 1 default).interestPayment = 0
    ∧ ((0 : ℚ) ≠ 100 * (10 / 100)) := by
  constructor
  · norm_num [generateBalloonSchedule, balloonRow, List.range_succ]
  · norm_num

/-- C1 (amended): in every balloon schedule row, `principalPayment` is `0`
before the final period and `principal` at it, `remainingBalance` is
`principal` before the final period and `0` at it, and `interestPayment`
equals `principal * (rate/100)` in every row except that with `begin` timing
the final row's interest is `0`. -/
theorem generateBalloonSchedule_row_fields (principal rate : ℚ) (n : ℕ)
    (t : Timing) (hn : 1 ≤ n) (k : ℕ) (hk : k < n) :
    ((generateBalloonSchedule principal rate n t).getD k default).interestPayment
      = (if k + 1 = n ∧ t = Timing.begin then 0 else principal * (rate / 100))
    ∧ ((generateBalloonSchedule principal rate n t).getD k default).principalPayment
      = (if k + 1 = n then principal else 0)
    ∧ ((generateBalloonSchedule principal rate n t).getD k default).remainingBalance
      = (if k + 1 = n then 0 else principal) := by
  rw [generateBalloonSchedule_getD principal rate n t k hk]
  unfold balloonRow
  by_cases h : k + 1 < n
  · have hne : ¬(k + 1 = n) := by omega
    simp [h, hne]
  · have heq : k + 1 = n := by omega
    cases t <;> simp [h, heq]

/-- C1 witness: the amended row description instantiated at
`(100, 10, 2, 'end')`, final row. -/
theorem generateBalloonSchedule_row_fields_witness :
    (1 ≤ 2 ∧ 1 < 2)
    ∧ ((generateBalloonSchedule 100 10 2 Timing.end').getD 1 default).interestPayment
      = (if 1 + 1 = 2 ∧ Timing.end' = Timing.begin then 0 else (100 : ℚ) * (10 / 100)) :=
  ⟨by omega, (generateBalloonSchedule_row_fields 100 10 2 Timing.end'
    (by omega) 1 (by omega)).1⟩

/-- C3: at `(principal, rate, periods, timing) = (100, 10, 2, 'begin')` the
"equal total payments" schedule produced by `generateRegularSchedule` has two
different total payments (`370/7 ≈ 52.86` and `1010/21 ≈ 48.10`), violating
the level-payment property the function is documented to provide. -/
theorem regular_begin_totalPayment_unequal :
    (generateRegularSchedule 100 10 2 Timing.begin).map AMRTRow.totalPayment
      = [370 / 7, 1010 / 21]
    ∧ ((370 : ℚ) / 7 ≠ 1010 / 21) := by
  constructor
  · norm_num [generateRegularSchedule, regularLoop, regularPmt]
  · norm_num

/-- C5: `bisectionMethod` returns `none` exactly when `f(a)·f(b) > 0`; in
every other case (including iteration-budget exhaustion, which yields the
final midpoint) it returns a number. -/
theorem bisectionMethod_eq_none_iff (f : ℚ → ℚ) (a b tolerance : ℚ)
    (maxIterations : ℕ) :
    bisectionMethod f a b tolerance maxIterations = none ↔ f a * f b > 0 := by
  by_cases h : f a * f b > 0 <;> simp [bisectionMethod, h]

/-- Any value produced by the bisection loop lies inside the current
bracket. -/
theorem bisectionLoop_mem_bracket (f : ℚ → ℚ) (tol : ℚ) :
    ∀ (fuel : ℕ) (a b fa fb : ℚ), a ≤ b →
      a ≤ bisectionLoop f tol fuel a b fa fb ∧ bisectionLoop f tol fuel a b fa fb ≤ b := by
  intro fuel
  induction fuel with
  | zero =>
    intro a b fa fb hab
    constructor
    · show a ≤ (a + b) / 2
      linarith
    · show (a + b) / 2 ≤ b
      linarith
  | succ fuel ih =>
    intro a b fa fb hab
    have hac : a ≤ (a + b) / 2 := by linarith
    have hcb : (a + b) / 2 ≤ b := by linarith
    simp only [bisectionLoop]
    split_ifs with h1 h2
    · exact ⟨hac, hcb⟩
    · rcases ih a ((a + b) / 2) fa (f ((a + b) / 2)) hac with ⟨h3, h4⟩
      exact ⟨h3, le_trans h4 hcb⟩
    · rcases ih ((a + b) / 2) b (f ((a + b) / 2)) fb hcb with ⟨h3, h4⟩
      exact ⟨le_trans hac h3, h4⟩

/-- C10: every number returned by `bisectionMethod` — whether a converged
midpoint or the budget-exhausted final midpoint — lies inside the initial
bracket `[a, b]`. -/
theorem bisectionMethod_result_in_bracket (f : ℚ → ℚ) (a b tolerance : ℚ)
    (maxIterations : ℕ) (c : ℚ) (hab : a ≤ b) (htol : 0 < tolerance)
    (h : bisectionMethod f a b tolerance maxIterations = some c) :
    a ≤ c ∧ c ≤ b := by
  by_cases hg : f a * f b > 0
  · simp [bisectionMethod, hg] at h
  · simp only [bisectionMethod, hg, if_false] at h
    rw [Option.some_inj] at h
    rw [← h]
    exact bisectionLoop_mem_bracket f tolerance maxIterations a b (f a) (f b) hab

/-- C10 witness: the identity function over `[-1, 1]` with zero iteration
budget returns the initial midpoint `0`, which lies in the bracket. -/
theorem bisectionMethod_result_in_bracket_witness :
    ((-1 : ℚ) ≤ 1 ∧ (0 : ℚ) < 1 / 1000000
      ∧ bisectionMethod (fun x => x) (-1) 1 (1 / 1000000) 0 = some 0)
    ∧ ((-1 : ℚ) ≤ 0 ∧ (0 : ℚ) ≤ 1) :=
  ⟨⟨by norm_num, by norm_num, by norm_num [bisectionMethod, bisectionLoop]⟩,
    bisectionMethod_result_in_bracket (fun x => x) (-1) 1 (1 / 1000000) 0 0
      (by norm_num) (by norm_num) (by norm_num [bisectionMethod, bisectionLoop])⟩

/-- C6: `calculatePV` is the exact algebraic inverse of `calculateFV` for
`pmt = 0` and `end` timing: the round trip returns `pv` exactly (hence
within any tolerance), covering both the `rate = 0` branch and the general
closed-form branch. -/
theorem calculateFV_calculatePV_roundtrip (pv rate : ℚ) (n : ℕ)
    (hr : 0 ≤ rate) (hn : 0 < n) :
    calculatePV (calculateFV pv rate n 0 Timing.end') rate n 0 Timing.end' = pv := by
  by_cases h : rate / 100 = 0
  · simp [calculateFV, calculatePV, h]
  · have hq : (0 : ℚ) < 1 + rate / 100 := by
      have : (0 : ℚ) ≤ rate / 100 := by positivity
      linarith
    have hqne : (1 + rate / 100 : ℚ) ≠ 0 := ne_of_gt hq
    have hpow : ((1 + rate / 100 : ℚ) ^ n) ≠ 0 := pow_ne_zero n hqne
    simp only [calculateFV, calculatePV, h, if_false, zero_mul, mul_zero, add_zero, sub_zero]
    rw [zpow_neg, zpow_natCast, mul_assoc, mul_inv_cancel₀ hpow, mul_one]

/-- C6 witness: the round trip instantiated at `pv = 1000`, `rate = 5`,
`periods = 10`. -/
theorem calculateFV_calculatePV_roundtrip_witness :
    ((0 : ℚ) ≤ 5 ∧ 0 < 10)
    ∧ calculatePV (calculateFV 1000 5 10 0 Timing.end') 5 10 0 Timing.end' = 1000 :=
  ⟨⟨by norm_num, by norm_num⟩,
    calculateFV_calculatePV_roundtrip 1000 5 10 (by norm_num) (by norm_num)⟩

/-- Whenever the Newton loop of `calculateIRR` returns a rate, the NPV at the
rate where it stopped was below the 1e-6 tolerance. -/
theorem irrLoop_npv_small (cf : List ℚ) :
    ∀ (fuel : ℕ) (rate r : ℚ), irrLoop cf fuel rate = some r →
      |calculateNPV cf r| < 1 / 10000 := by
  intro fuel
  induction fuel with
  | zero => intro rate r h; simp [irrLoop] at h
  | succ fuel ih =>
    intro rate r h
    rw [irrLoop] at h
    by_cases h1 : |npvFrom rate cf 0| < 1 / 1000000
    · rw [if_pos h1, Option.some_inj] at h
      subst h
      have hr : rate * 100 / 100 = rate := by
        rw [mul_div_cancel_right₀ rate (by norm_num : (100 : ℚ) ≠ 0)]
      rw [calculateNPV, hr]
      linarith [h1]
    · rw [if_neg h1] at h
      by_cases h2 : |dnpvFrom rate cf 0| < 1 / 10000000000
      · rw [if_pos h2] at h
        exact absurd h (by simp)
      · rw [if_neg h2] at h
        by_cases h3 : rate - npvFrom rate cf 0 / dnpvFrom rate cf 0 < -1
        · rw [if_pos h3] at h
          exact absurd h (by simp)
        · rw [if_neg h3] at h
          exact ih _ r h

/-- C8: if `calculateIRR` returns a non-null percentage rate `r`, then
`calculateNPV(cashFlows, r)` is within `1e-4` of zero (in fact within the
loop's own `1e-6` tolerance: the percent conversion `r = rate·100` is undone
exactly by `calculateNPV`'s division by 100). -/
theorem calculateIRR_npv_small (cf : List ℚ) (guess r : ℚ)
    (h : calculateIRR cf guess = some r) :
    |calculateNPV cf r| < 1 / 10000 :=
  irrLoop_npv_small cf 100 guess r h

/-- C8 witness: `calculateIRR([-100, 110])` from guess `0.1` converges at
once to `10` percent, and the NPV of the series at 10 percent is within
`1e-4` of zero. -/
theorem calculateIRR_npv_small_witness :
    calculateIRR [-100, 110] (1 / 10) = some 10
    ∧ |calculateNPV [-100, 110] 10| < 1 / 10000 := by
  have hirr : calculateIRR [-100, 110] (1 / 10) = some 10 := by
    have h0 : npvFrom (1 / 10) [-100, 110] 0 = 0 := by norm_num [npvFrom]
    unfold calculateIRR
    rw [show (100 : ℕ) = 99 + 1 from rfl, irrLoop, h0]
    norm_num
  exact ⟨hirr, calculateIRR_npv_small [-100, 110] (1 / 10) 10 hirr⟩

/-- One clamped constant-capacity payment step never increases the clamped
balance: used for the schedules whose per-period principal is
`min c balance` with a balance-independent cap `c ≥ 0`. -/
theorem max_zero_capped_step_le (c x : ℚ) (hc : 0 ≤ c) :
    max 0 (x - min c x) ≤ max 0 x := by
  rcases le_or_lt 0 x with hx | hx
  · have h1 : 0 ≤ min c x := le_min hc hx
    exact max_le_max le_rfl (by linarith)
  · have h2 : min c x = x := min_eq_right (by linarith)
    rw [h2]
    simp

/-- The shpitzer loop emits exactly `fuel` rows. -/
theorem shpitzerLoop_length (pp r : ℚ) (t : Timing) :
    ∀ (fuel period : ℕ) (bal : ℚ), (shpitzerLoop pp r t fuel period bal).length = fuel := by
  intro fuel
  induction fuel with
  | zero => intro period bal; rfl
  | succ fuel ih => intro period bal; simp [shpitzerLoop, ih]

/-- Row `k` of the shpitzer loop carries period number `period + k`. -/
theorem shpitzerLoop_period (pp r : ℚ) (t : Timing) :
    ∀ (fuel period : ℕ) (bal : ℚ) (k : ℕ), k < fuel →
      ((shpitzerLoop pp r t fuel period bal).getD k default).period = period + k := by
  intro fuel
  induction fuel with
  | zero => intro _ _ k hk; omega
  | succ fuel ih =>
    intro period bal k hk
    match k with
    | 0 => rfl
    | k + 1 =>
      show ((shpitzerLoop pp r t fuel (period + 1) _).getD k default).period = _
      rw [ih (period + 1) _ k (by omega)]
      omega

/-- Every shpitzer row satisfies `totalPayment = principal + interest`. -/
theorem shpitzerLoop_total (pp r : ℚ) (t : Timing) :
    ∀ (fuel period : ℕ) (bal : ℚ), ∀ row ∈ shpitzerLoop pp r t fuel period bal,
      row.totalPayment = row.principalPayment + row.interestPayment := by
  intro fuel
  induction fuel with
  | zero => intro _ _ row hrow; simp [shpitzerLoop] at hrow
  | succ fuel ih =>
    intro period bal row hrow
    rw [shpitzerLoop] at hrow
    rcases List.mem_cons.mp hrow with h | h
    · subst h; rfl
    · exact ih _ _ row h

/-- Stored shpitzer balances are non-increasing when the equal principal
slice is non-negative. -/
theorem shpitzerLoop_balance_mono (pp r : ℚ) (t : Timing) (hpp : 0 ≤ pp) :
    ∀ (fuel period : ℕ) (bal : ℚ) (k : ℕ), k + 1 < fuel →
      ((shpitzerLoop pp r t fuel period bal).getD (k + 1) default).remainingBalance
        ≤ ((shpitzerLoop pp r t fuel period bal).getD k default).remainingBalance := by
  intro fuel
  induction fuel with
  | zero => intro _ _ k hk; omega
  | succ fuel ih =>
    intro period bal k hk
    match k with
    | 0 =>
      match fuel, hk with
      | fuel + 1, _ =>
        show ((shpitzerLoop pp r t (fuel + 1) (period + 1) (bal - min pp bal)).getD 0
            default).remainingBalance ≤ max 0 (bal - min pp bal)
        rw [shpitzerLoop]
        exact max_zero_capped_step_le pp (bal - min pp bal) hpp
    | k + 1 =>
      show ((shpitzerLoop pp r t fuel (period + 1) _).getD (k + 1) default).remainingBalance
        ≤ ((shpitzerLoop pp r t fuel (period + 1) _).getD k default).remainingBalance
      exact ih (period + 1) _ k (by omega)

/-- As long as the balance can cover `fuel` more equal slices, the shpitzer
loop pays exactly `fuel · pp` of principal in total. -/
theorem shpitzerLoop_sum (pp r : ℚ) (t : Timing) (hpp : 0 ≤ pp) :
    ∀ (fuel : ℕ) (period : ℕ) (bal : ℚ), (fuel : ℚ) * pp ≤ bal →
      ((shpitzerLoop pp r t fuel period bal).map AMRTRow.principalPayment).sum
        = fuel * pp := by
  intro fuel
  induction fuel with
  | zero => intro _ _ _; simp [shpitzerLoop]
  | succ fuel ih =>
    intro period bal hbal
    have hfc : ((fuel : ℚ) + 1) * pp ≤ bal := by push_cast at hbal ⊢; linarith
    have hfn : (0 : ℚ) ≤ (fuel : ℚ) * pp := mul_nonneg (by positivity) hpp
    have hple : pp ≤ bal := by nlinarith
    have happ : min pp bal = pp := min_eq_left hple
    rw [shpitzerLoop]
    simp only [List.map_cons, List.sum_cons, happ]
    rw [ih (period + 1) (bal - pp) (by push_cast at hbal ⊢; linarith)]
    push_cast
    ring

/-- Unfolding one iteration of the regular loop through the
branch-independent `regularPay`/`regularIP` views. -/
theorem regularLoop_cons (pmt r : ℚ) (t : Timing) (fuel period : ℕ) (bal : ℚ) :
    regularLoop pmt r t (fuel + 1) period bal
      = { period := period, principalPayment := regularPay pmt r t bal,
          interestPayment := regularIP pmt r t bal,
          totalPayment := regularPay pmt r t bal + regularIP pmt r t bal,
          remainingBalance := max 0 (bal - regularPay pmt r t bal) } ::
        regularLoop pmt r t fuel (period + 1) (bal - regularPay pmt r t bal) := by
  by_cases ht : t = .begin <;> simp [regularLoop, regularPay, regularIP, ht]

/-- The regular loop emits exactly `fuel` rows. -/
theorem regularLoop_length (pmt r : ℚ) (t : Timing) :
    ∀ (fuel period : ℕ) (bal : ℚ), (regularLoop pmt r t fuel period bal).length = fuel := by
  intro fuel
  induction fuel with
  | zero => intro period bal; cases t <;> rfl
  | succ fuel ih => intro period bal; rw [regularLoop_cons]; simp [ih]

/-- Row `k` of the regular loop carries period number `period + k`. -/
theorem regularLoop_period (pmt r : ℚ) (t : Timing) :
    ∀ (fuel period : ℕ) (bal : ℚ) (k : ℕ), k < fuel →
      ((regularLoop pmt r t fuel period bal).getD k default).period = period + k := by
  intro fuel
  induction fuel with
  | zero => intro _ _ k hk; omega
  | succ fuel ih =>
    intro period bal k hk
    rw [regularLoop_cons]
    match k with
    | 0 => rfl
    | k + 1 =>
      rw [List.getD_cons_succ, ih (period + 1) _ k (by omega)]
      omega

/-- Every regular row satisfies `totalPayment = principal + interest`. -/
theorem regularLoop_total (pmt r : ℚ) (t : Timing) :
    ∀ (fuel period : ℕ) (bal : ℚ), ∀ row ∈ regularLoop pmt r t fuel period bal,
      row.totalPayment = row.principalPayment + row.interestPayment := by
  intro fuel
  induction fuel with
  | zero => intro _ _ row hrow; cases t <;> simp [regularLoop] at hrow
  | succ fuel ih =>
    intro period bal row hrow
    rw [regularLoop_cons] at hrow
    rcases List.mem_cons.mp hrow with h | h
    · subst h; rfl
    · exact ih _ _ row h

/-- With `begin` timing the regular principal is capped by the constant
`pmt/(1+r)`, so stored balances are non-increasing whenever that cap is
non-negative. -/
theorem regularLoop_balance_mono_begin (pmt r : ℚ) (hc : 0 ≤ pmt / (1 + r)) :
    ∀ (fuel period : ℕ) (bal : ℚ) (k : ℕ), k + 1 < fuel →
      ((regularLoop pmt r Timing.begin fuel period bal).getD (k + 1) default).remainingBalance
        ≤ ((regularLoop pmt r Timing.begin fuel period bal).getD k default).remainingBalance := by
  intro fuel
  induction fuel with
  | zero => intro _ _ k hk; omega
  | succ fuel ih =>
    intro period bal k hk
    rw [regularLoop_cons]
    match k with
    | 0 =>
      match fuel, hk with
      | fuel + 1, _ =>
        rw [List.getD_cons_succ, List.getD_cons_zero, regularLoop_cons, List.getD_cons_zero]
        have hview : regularPay pmt r Timing.begin (bal - regularPay pmt r Timing.begin bal)
            = min (pmt / (1 + r)) (bal - regularPay pmt r Timing.begin bal) := rfl
        rw [hview]
        exact max_zero_capped_step_le (pmt / (1 + r)) _ hc
    | k + 1 =>
      rw [List.getD_cons_succ, List.getD_cons_succ]
      exact ih (period + 1) _ k (by omega)

/-- With `end` timing and a balance within `[0, B]` where `B·r ≤ pmt`, one
regular payment is non-negative and cannot exceed the balance. -/
theorem regularPay_end_bounds (pmt r B x : ℚ) (hr : 0 ≤ r) (hBr : B * r ≤ pmt)
    (hx0 : 0 ≤ x) (hxB : x ≤ B) :
    0 ≤ min (pmt - x * r) x ∧ min (pmt - x * r) x ≤ x := by
  constructor
  · apply le_min _ hx0
    have : x * r ≤ B * r := mul_le_mul_of_nonneg_right hxB hr
    linarith
  · exact min_le_right _ _

/-- With `end` timing, stored regular balances are non-increasing as long as
the starting balance lies in `[0, B]` with `B·r ≤ pmt`. -/
theorem regularLoop_balance_mono_end (pmt r B : ℚ) (hr : 0 ≤ r) (hBr : B * r ≤ pmt) :
    ∀ (fuel period : ℕ) (bal : ℚ) (k : ℕ), 0 ≤ bal → bal ≤ B → k + 1 < fuel →
      ((regularLoop pmt r Timing.end' fuel period bal).getD (k + 1) default).remainingBalance
        ≤ ((regularLoop pmt r Timing.end' fuel period bal).getD k default).remainingBalance := by
  intro fuel
  induction fuel with
  | zero => intro _ _ k _ _ hk; omega
  | succ fuel ih =>
    intro period bal k hb0 hbB hk
    have hpay : regularPay pmt r Timing.end' bal = min (pmt - bal * r) bal := rfl
    have hbnd := regularPay_end_bounds pmt r B bal hr hBr hb0 hbB
    rw [regularLoop_cons]
    match k with
    | 0 =>
      match fuel, hk with
      | fuel + 1, _ =>
        rw [List.getD_cons_succ, List.getD_cons_zero, regularLoop_cons, List.getD_cons_zero]
        set bal' := bal - regularPay pmt r Timing.end' bal with hbal'
        have hb'0 : 0 ≤ bal' := by rw [hbal', hpay]; rcases hbnd with ⟨_, h2⟩; linarith
        have hb'B : bal' ≤ B := by rw [hbal', hpay]; rcases hbnd with ⟨h1, _⟩; linarith
        have hbnd' := regularPay_end_bounds pmt r B bal' hr hBr hb'0 hb'B
        have hpay' : regularPay pmt r Timing.end' bal' = min (pmt - bal' * r) bal' := rfl
        have h1 : bal' - regularPay pmt r Timing.end' bal' ≤ bal' := by
          rw [hpay']; rcases hbnd' with ⟨h1, _⟩; linarith
        calc max 0 (bal' - regularPay pmt r Timing.end' bal')
            ≤ max 0 bal' := max_le_max le_rfl h1
          _ = max 0 (bal - regularPay pmt r Timing.end' bal) := by rw [hbal']
    | k + 1 =>
      rw [List.getD_cons_succ, List.getD_cons_succ]
      have hb'0 : 0 ≤ bal - regularPay pmt r Timing.end' bal := by
        rw [hpay]; rcases hbnd with ⟨_, h2⟩; linarith
      have hb'B : bal - regularPay pmt r Timing.end' bal ≤ B := by
        rw [hpay]; rcases hbnd with ⟨h1, _⟩; linarith
      exact ih (period + 1) _ k hb'0 hb'B (by omega)

/-- At rate zero both timing branches of the regular loop pay `min pmt bal`. -/
theorem regularPay_r0 (pmt : ℚ) (t : Timing) (bal : ℚ) :
    regularPay pmt 0 t bal = min pmt bal := by
  cases t <;> simp [regularPay]

/-- At rate zero the regular loop pays `fuel · pmt` of principal whenever
the balance can cover it. -/
theorem regularLoop_sum_r0 (pmt : ℚ) (t : Timing) (hpmt : 0 ≤ pmt) :
    ∀ (fuel period : ℕ) (bal : ℚ), (fuel : ℚ) * pmt ≤ bal →
      ((regularLoop pmt 0 t fuel period bal).map AMRTRow.principalPayment).sum
        = fuel * pmt := by
  intro fuel
  induction fuel with
  | zero => intro _ _ _; cases t <;> simp [regularLoop]
  | succ fuel ih =>
    intro period bal hbal
    have hfn : (0 : ℚ) ≤ (fuel : ℚ) * pmt := mul_nonneg (by positivity) hpmt
    have hple : pmt ≤ bal := by push_cast at hbal; nlinarith
    rw [regularLoop_cons]
    simp only [List.map_cons, List.sum_cons, regularPay_r0, min_eq_left hple]
    rw [ih (period + 1) (bal - pmt) (by push_cast at hbal ⊢; linarith)]
    push_cast
    ring

/-- The closed-form annuity balance is non-negative while `j ≤ n`. -/
theorem annuityBalance_nonneg (P r : ℚ) (n j : ℕ) (hP : 0 ≤ P) (hr : 0 < r)
    (hn : 1 ≤ n) (hj : j ≤ n) : 0 ≤ annuityBalance P r n j := by
  unfold annuityBalance
  have h1 : (1 + r : ℚ) ^ j ≤ (1 + r) ^ n := pow_le_pow_right₀ (by linarith) hj
  have h2 : (1 : ℚ) < (1 + r) ^ n := one_lt_pow₀ (by linarith) (by omega)
  apply div_nonneg
  · exact mul_nonneg hP (by linarith)
  · linarith

/-- One level payment carries the closed-form annuity balance from index `j`
to index `j+1`. -/
theorem annuityBalance_step (P r : ℚ) (n j : ℕ) (hr : 0 < r) (hn : 1 ≤ n) :
    annuityBalance P r n j * (1 + r) - P * r * (1 + r) ^ n / ((1 + r) ^ n - 1)
      = annuityBalance P r n (j + 1) := by
  unfold annuityBalance
  have h2 : (1 : ℚ) < (1 + r) ^ n := one_lt_pow₀ (by linarith) (by omega)
  have hd : ((1 + r) ^ n - 1 : ℚ) ≠ 0 := ne_of_gt (by linarith)
  field_simp
  ring

/-- The closed-form annuity balance starts at the full principal. -/
theorem annuityBalance_zero (P r : ℚ) (n : ℕ) (hr : 0 < r) (hn : 1 ≤ n) :
    annuityBalance P r n 0 = P := by
  unfold annuityBalance
  have h2 : (1 : ℚ) < (1 + r) ^ n := one_lt_pow₀ (by linarith) (by omega)
  have hd : ((1 + r) ^ n - 1 : ℚ) ≠ 0 := ne_of_gt (by linarith)
  rw [pow_zero, mul_div_assoc, div_self hd, mul_one]

/-- The closed-form annuity balance ends at zero. -/
theorem annuityBalance_last (P r : ℚ) (n : ℕ) : annuityBalance P r n n = 0 := by
  unfold annuityBalance
  simp

/-- The `end`-timing level payment rewritten without the negative power. -/
theorem regularPmt_end_eq (P rate : ℚ) (n : ℕ) (hr : 0 < rate / 100) (hn : 1 ≤ n) :
    regularPmt P rate n Timing.end'
      = P * (rate / 100) * (1 + rate / 100) ^ n / ((1 + rate / 100) ^ n - 1) := by
  have h2 : (1 : ℚ) < (1 + rate / 100) ^ n := one_lt_pow₀ (by linarith) (by omega)
  have hp : (0 : ℚ) < (1 + rate / 100) ^ n := by linarith
  unfold regularPmt
  rw [if_neg (ne_of_gt hr), if_neg (by simp : ¬(Timing.end' = Timing.begin))]
  rw [zpow_neg, zpow_natCast]
  have hsplit : ((1 + rate / 100) ^ n - 1) / (1 + rate / 100) ^ n
      = (1 : ℚ) - ((1 + rate / 100) ^ n)⁻¹ := by
    rw [sub_div, div_self (ne_of_gt hp), one_div]
  rw [← hsplit]
  rw [div_div_eq_mul_div]

/-- The `end`-timing level payment covers at least the first period's
interest on the full principal. -/
theorem regularPmt_end_ge (P rate : ℚ) (n : ℕ) (hP : 0 ≤ P) (hr : 0 < rate / 100)
    (hn : 1 ≤ n) : P * (rate / 100) ≤ regularPmt P rate n Timing.end' := by
  rw [regularPmt_end_eq P rate n hr hn]
  have h2 : (1 : ℚ) < (1 + rate / 100) ^ n := one_lt_pow₀ (by linarith) (by omega)
  have hd : (0 : ℚ) < (1 + rate / 100) ^ n - 1 := by linarith
  rw [le_div_iff₀ hd]
  nlinarith [mul_nonneg hP hr.le]

/-- The level payment is non-negative for non-negative principal and rate. -/
theorem regularPmt_nonneg (P rate : ℚ) (n : ℕ) (t : Timing) (hP : 0 ≤ P)
    (hrate : 0 ≤ rate) (hn : 1 ≤ n) : 0 ≤ regularPmt P rate n t := by
  by_cases h : rate / 100 = 0
  · unfold regularPmt
    rw [if_pos h]
    positivity
  · have hr : 0 < rate / 100 := lt_of_le_of_ne (by positivity) (Ne.symm h)
    have h2 : (1 : ℚ) < (1 + rate / 100) ^ n := one_lt_pow₀ (by linarith) (by omega)
    have hp : (0 : ℚ) < (1 + rate / 100) ^ n := by linarith
    have hz : (0 : ℚ) < 1 - (1 + rate / 100) ^ (-(n : ℤ)) := by
      rw [zpow_neg, zpow_natCast]
      have hinv : ((1 + rate / 100 : ℚ) ^ n)⁻¹ < 1 := by
        rw [inv_lt_one_iff₀]
        right
        exact h2
      linarith
    unfold regularPmt
    rw [if_neg h]
    cases t with
    | begin =>
      rw [if_pos rfl]
      exact div_nonneg (mul_nonneg hP hr.le) (mul_nonneg hz.le (by linarith))
    | end' =>
      rw [if_neg (by simp)]
      exact div_nonneg (mul_nonneg hP hr.le) hz.le

/-- With `end` timing and positive rate, `k` regular payments starting from
the closed-form balance at index `j` repay exactly the closed-form
difference: no clamp ever fires. -/
theorem regularLoop_sum_end (P rate : ℚ) (n : ℕ) (hP : 0 ≤ P) (hr : 0 < rate / 100)
    (hn : 1 ≤ n) :
    ∀ (k j period : ℕ), j + k ≤ n →
      ((regularLoop (regularPmt P rate n Timing.end') (rate / 100) Timing.end' k period
          (annuityBalance P (rate / 100) n j)).map AMRTRow.principalPayment).sum
        = annuityBalance P (rate / 100) n j - annuityBalance P (rate / 100) n (j + k) := by
  intro k
  induction k with
  | zero => intro j period _; simp [regularLoop]
  | succ k ih =>
    intro j period hjk
    have hstep := annuityBalance_step P (rate / 100) n j hr hn
    rw [← regularPmt_end_eq P rate n hr hn] at hstep
    have hA1 : 0 ≤ annuityBalance P (rate / 100) n (j + 1) :=
      annuityBalance_nonneg P (rate / 100) n (j + 1) hP hr hn (by omega)
    have hmul : annuityBalance P (rate / 100) n j * (1 + rate / 100)
        = annuityBalance P (rate / 100) n j
          + annuityBalance P (rate / 100) n j * (rate / 100) := by ring
    have hple : regularPmt P rate n Timing.end'
        - annuityBalance P (rate / 100) n j * (rate / 100)
        ≤ annuityBalance P (rate / 100) n j := by linarith
    have hpay : regularPay (regularPmt P rate n Timing.end') (rate / 100) Timing.end'
        (annuityBalance P (rate / 100) n j)
        = regularPmt P rate n Timing.end'
          - annuityBalance P (rate / 100) n j * (rate / 100) := by
      show min _ _ = _
      exact min_eq_left hple
    have hnew : annuityBalance P (rate / 100) n j
        - (regularPmt P rate n Timing.end'
          - annuityBalance P (rate / 100) n j * (rate / 100))
        = annuityBalance P (rate / 100) n (j + 1) := by linarith
    rw [regularLoop_cons]
    simp only [List.map_cons, List.sum_cons, hpay, hnew]
    rw [ih (j + 1) (period + 1) (by omega)]
    have hidx : j + 1 + k = j + (k + 1) := by omega
    rw [hidx]
    linarith

/-- Row `k` (0-based) of a grace schedule of `n` rows is the `graceRow` for
1-based period `k+1`, for any `gracePeriods` value. -/
theorem generateGraceSchedule_getD (principal rate : ℚ) (n g : ℕ) (t : Timing)
    (k : ℕ) (hk : k < n) :
    (generateGraceSchedule principal rate n g t).getD k default
      = graceRow principal (rate / 100) n (k + 1) := by
  have hlen : k < ((List.range n).map
      (fun i => graceRow principal (rate / 100) n (i + 1))).length := by
    simpa using hk
  rw [generateGraceSchedule, List.getD_eq_getElem?_getD, List.getElem?_eq_getElem hlen]
  simp [List.getElem_map, List.getElem_range]

/-- The balloon schedule repays exactly the principal: zero in every row but
the last, which repays all of it. -/
theorem generateBalloonSchedule_sum_principal (principal rate : ℚ) (n : ℕ)
    (t : Timing) (hn : 1 ≤ n) :
    ((generateBalloonSchedule principal rate n t).map AMRTRow.principalPayment).sum
      = principal := by
  obtain ⟨m, rfl⟩ : ∃ m, n = m + 1 := ⟨n - 1, by omega⟩
  unfold generateBalloonSchedule
  rw [List.map_map, List.range_succ, List.map_append, List.sum_append]
  have h0 : ((List.range m).map
      (AMRTRow.principalPayment ∘ fun i =>
        balloonRow principal (rate / 100) (m + 1) t (i + 1))).sum = 0 := by
    apply List.sum_eq_zero
    intro x hx
    rw [List.mem_map] at hx
    obtain ⟨i, hi, rfl⟩ := hx
    rw [List.mem_range] at hi
    show (balloonRow principal (rate / 100) (m + 1) t (i + 1)).principalPayment = 0
    unfold balloonRow
    rw [if_pos (by omega)]
  rw [h0]
  show 0 + ((balloonRow principal (rate / 100) (m + 1) t (m + 1)).principalPayment + 0)
    = principal
  unfold balloonRow
  rw [if_neg (by omega)]
  ring

/-- The grace schedule repays exactly the principal, for any `gracePeriods`
value. -/
theorem generateGraceSchedule_sum_principal (principal rate : ℚ) (n g : ℕ)
    (t : Timing) (hn : 1 ≤ n) :
    ((generateGraceSchedule principal rate n g t).map AMRTRow.principalPayment).sum
      = principal := by
  obtain ⟨m, rfl⟩ : ∃ m, n = m + 1 := ⟨n - 1, by omega⟩
  unfold generateGraceSchedule
  rw [List.map_map, List.range_succ, List.map_append, List.sum_append]
  have h0 : ((List.range m).map
      (AMRTRow.principalPayment ∘ fun i =>
        graceRow principal (rate / 100) (m + 1) (i + 1))).sum = 0 := by
    apply List.sum_eq_zero
    intro x hx
    rw [List.mem_map] at hx
    obtain ⟨i, hi, rfl⟩ := hx
    rw [List.mem_range] at hi
    show (graceRow principal (rate / 100) (m + 1) (i + 1)).principalPayment = 0
    unfold graceRow
    rw [if_pos (by omega)]
  rw [h0]
  show 0 + ((graceRow principal (rate / 100) (m + 1) (m + 1)).principalPayment + 0)
    = principal
  unfold graceRow
  rw [if_neg (by omega)]
  ring

/-- C7 (amended): for every schedule type and timing, `generateSchedule`
returns exactly `periods` rows numbered `1..periods`, every row satisfies
`totalPayment = principalPayment + interestPayment`, `remainingBalance` is
non-increasing from row to row, and the principal payments sum to the
original principal — except in the regular/`begin`/nonzero-rate combination,
whose mis-sized payments leave part of the principal unpaid. -/
theorem generateSchedule_invariants (P rate : ℚ) (n : ℕ) (ty : ScheduleType)
    (t : Timing) (g : Option ℕ) (hP : 0 ≤ P) (hrate : 0 ≤ rate) (hn : 1 ≤ n) :
    (generateSchedule P rate n ty t g).length = n
    ∧ (∀ k, k < n → ((generateSchedule P rate n ty t g).getD k default).period = k + 1)
    ∧ (∀ row ∈ generateSchedule P rate n ty t g,
        row.totalPayment = row.principalPayment + row.interestPayment)
    ∧ (∀ k, k + 1 < n →
        ((generateSchedule P rate n ty t g).getD (k + 1) default).remainingBalance
          ≤ ((generateSchedule P rate n ty t g).getD k default).remainingBalance)
    ∧ (¬(ty = ScheduleType.regular ∧ t = Timing.begin ∧ rate ≠ 0) →
        ((generateSchedule P rate n ty t g).map AMRTRow.principalPayment).sum = P) := by
  have hnQ : ((n : ℚ)) ≠ 0 := Nat.cast_ne_zero.mpr (by omega)
  have hr100 : (0 : ℚ) ≤ rate / 100 := by positivity
  cases ty with
  | shpitzer =>
    have hpp : (0 : ℚ) ≤ P / n := by positivity
    have hPdiv : ((n : ℚ)) * (P / n) = P := by field_simp
    refine ⟨shpitzerLoop_length _ _ _ n 1 P, ?_, shpitzerLoop_total _ _ _ n 1 P, ?_, ?_⟩
    · intro k hk
      rw [show (generateSchedule P rate n ScheduleType.shpitzer t g).getD k default
          = (shpitzerLoop (P / n) (rate / 100) t n 1 P).getD k default from rfl]
      rw [shpitzerLoop_period (P / n) (rate / 100) t n 1 P k hk]
      omega
    · intro k hk
      exact shpitzerLoop_balance_mono (P / n) (rate / 100) t hpp n 1 P k hk
    · intro _
      rw [show ((generateSchedule P rate n ScheduleType.shpitzer t g).map
            AMRTRow.principalPayment).sum
          = ((shpitzerLoop (P / n) (rate / 100) t n 1 P).map AMRTRow.principalPayment).sum
          from rfl]
      rw [shpitzerLoop_sum (P / n) (rate / 100) t hpp n 1 P (le_of_eq hPdiv), hPdiv]
  | regular =>
    have hpm : 0 ≤ regularPmt P rate n t := regularPmt_nonneg P rate n t hP hrate hn
    refine ⟨regularLoop_length _ _ _ n 1 P, ?_, regularLoop_total _ _ _ n 1 P, ?_, ?_⟩
    · intro k hk
      rw [show (generateSchedule P rate n ScheduleType.regular t g).getD k default
          = (regularLoop (regularPmt P rate n t) (rate / 100) t n 1 P).getD k default
          from rfl]
      rw [regularLoop_period (regularPmt P rate n t) (rate / 100) t n 1 P k hk]
      omega
    · intro k hk
      cases t with
      | begin =>
        have hc : (0 : ℚ) ≤ regularPmt P rate n Timing.begin / (1 + rate / 100) :=
          div_nonneg hpm (by linarith)
        exact regularLoop_balance_mono_begin (regularPmt P rate n Timing.begin)
          (rate / 100) hc n 1 P k hk
      | end' =>
        have hBr : P * (rate / 100) ≤ regularPmt P rate n Timing.end' := by
          by_cases hr0 : rate / 100 = 0
          · rw [hr0, mul_zero]
            exact hpm
          · exact regularPmt_end_ge P rate n hP
              (lt_of_le_of_ne hr100 (Ne.symm hr0)) hn
        exact regularLoop_balance_mono_end (regularPmt P rate n Timing.end')
          (rate / 100) P hr100 hBr n 1 P k hP le_rfl hk
    · intro hcond
      by_cases hr0 : rate = 0
      · subst hr0
        have hz : (0 : ℚ) / 100 = 0 := by norm_num
        have hpmt : regularPmt P 0 n t = P / n := by
          unfold regularPmt
          rw [if_pos (by norm_num)]
        have hpp : (0 : ℚ) ≤ P / n := by positivity
        have hPdiv : ((n : ℚ)) * (P / n) = P := by field_simp
        rw [show ((generateSchedule P 0 n ScheduleType.regular t g).map
              AMRTRow.principalPayment).sum
            = ((regularLoop (regularPmt P 0 n t) ((0 : ℚ) / 100) t n 1 P).map
              AMRTRow.principalPayment).sum from rfl]
        rw [hpmt, hz]
        rw [regularLoop_sum_r0 (P / n) t hpp n 1 P (le_of_eq hPdiv), hPdiv]
      · cases t with
        | begin => exact absurd ⟨rfl, rfl, hr0⟩ hcond
        | end' =>
          have hrr : 0 < rate / 100 := by
            rcases lt_or_eq_of_le hr100 with h | h
            · exact h
            · exact absurd (by field_simp at h; linarith [h] : rate = 0) hr0
          have hA0 := annuityBalance_zero P (rate / 100) n hrr hn
          have hsum := regularLoop_sum_end P rate n hP hrr hn n 0 1 (by omega)
          rw [hA0, zero_add, annuityBalance_last, sub_zero] at hsum
          exact hsum
  | balloon =>
    refine ⟨?_, ?_, ?_, ?_, ?_⟩
    · rw [show generateSchedule P rate n ScheduleType.balloon t g
          = generateBalloonSchedule P rate n t from rfl]
      simp [generateBalloonSchedule]
    · intro k hk
      rw [show (generateSchedule P rate n ScheduleType.balloon t g).getD k default
          = (generateBalloonSchedule P rate n t).getD k default from rfl]
      rw [generateBalloonSchedule_getD P rate n t k hk]
      unfold balloonRow
      split_ifs <;> rfl
    · intro row hrow
      rw [show generateSchedule P rate n ScheduleType.balloon t g
          = generateBalloonSchedule P rate n t from rfl] at hrow
      rw [generateBalloonSchedule, List.mem_map] at hrow
      obtain ⟨i, _, rfl⟩ := hrow
      unfold balloonRow
      split_ifs <;> rfl
    · intro k hk
      rw [show generateSchedule P rate n ScheduleType.balloon t g
          = generateBalloonSchedule P rate n t from rfl]
      rw [generateBalloonSchedule_getD P rate n t k (by omega),
        generateBalloonSchedule_getD P rate n t (k + 1) (by omega)]
      unfold balloonRow
      rw [if_pos (show k + 1 < n by omega)]
      split_ifs <;> first | exact le_rfl | exact hP
    · intro _
      exact generateBalloonSchedule_sum_principal P rate n t hn
  | grace =>
    refine ⟨?_, ?_, ?_, ?_, ?_⟩
    · rw [show generateSchedule P rate n ScheduleType.grace t g
          = generateGraceSchedule P rate n
              (match g with | some v => if v = 0 then n else v | none => n) t
          from rfl]
      simp [generateGraceSchedule]
    · intro k hk
      rw [show (generateSchedule P rate n ScheduleType.grace t g).getD k default
          = (generateGraceSchedule P rate n
              (match g with | some v => if v = 0 then n else v | none => n) t).getD k default
          from rfl]
      rw [generateGraceSchedule_getD P rate n _ t k hk]
      unfold graceRow
      split_ifs <;> rfl
    · intro row hrow
      rw [show generateSchedule P rate n ScheduleType.grace t g
          = generateGraceSchedule P rate n
              (match g with | some v => if v = 0 then n else v | none => n) t
          from rfl] at hrow
      rw [generateGraceSchedule, List.mem_map] at hrow
      obtain ⟨i, _, rfl⟩ := hrow
      unfold graceRow
      split_ifs <;> rfl
    · intro k hk
      rw [show generateSchedule P rate n ScheduleType.grace t g
          = generateGraceSchedule P rate n
              (match g with | some v => if v = 0 then n else v | none => n) t
          from rfl]
      rw [generateGraceSchedule_getD P rate n _ t k (by omega),
        generateGraceSchedule_getD P rate n _ t (k + 1) (by omega)]
      unfold graceRow
      rw [if_pos (show k + 1 < n by omega)]
      split_ifs <;> first | exact le_rfl | exact hP
    · intro _
      rw [show generateSchedule P rate n ScheduleType.grace t g
          = generateGraceSchedule P rate n
              (match g with | some v => if v = 0 then n else v | none => n) t
          from rfl]
      exact generateGraceSchedule_sum_principal P rate n _ t hn

/-- C7 counterexample: for the regular policy with `begin` timing at
`(principal, rate, periods) = (100, 10, 2)` the principal payments sum to
`2000/21 ≈ 95.24`, not the original principal `100`. -/
theorem generateSchedule_regular_begin_sum_ne_principal :
    ((generateSchedule 100 10 2 ScheduleType.regular Timing.begin none).map
      AMRTRow.principalPayment).sum = 2000 / 21
    ∧ ((2000 : ℚ) / 21 ≠ 100) := by
  constructor
  · norm_num [generateSchedule, generateRegularSchedule, regularLoop, regularPmt]
  · norm_num

/-- C7 witness: the invariants instantiated for the shpitzer policy at
`(100, 10, 2, 'end')`; the length clause is extracted. -/
theorem generateSchedule_invariants_witness :
    ((0 : ℚ) ≤ 100 ∧ (0 : ℚ) ≤ 10 ∧ 1 ≤ 2)
    ∧ (generateSchedule 100 10 2 ScheduleType.shpitzer Timing.end' none).length = 2 :=
  ⟨⟨by norm_num, by norm_num, by norm_num⟩,
    (generateSchedule_invariants 100 10 2 ScheduleType.shpitzer Timing.end' none
      (by norm_num) (by norm_num) (by norm_num)).1⟩
